import Mathlib

/-!
Verification of the rv-spec-grep data-generation pipeline.

This file gives a shallow embedding of the pipeline's core functions
(the encoding-line grammar, the opcode-file parser, the CSR privilege
inference, the AsciiDoc markup cleaner, the description-extraction
strategies and the dedup/merge stage) as executable Lean definitions,
together with theorems settling the frozen claims about them.

Strings are processed as `List Char`; JavaScript regular-expression
behaviour (greedy character classes, left-to-right global scans,
backtracking where it is observable) is reproduced by hand-written
scanners.  Scanners that restart after a match use an explicit fuel
argument equal to the input length; every match consumes at least one
character, so this fuel is always sufficient and the definitions compute
by kernel reduction.
-/

namespace RvSpecGrep

/-! ### Character classes (ASCII, as used by the JS source) -/

/-- JS `\s` on the ASCII range: space, tab, LF, VT, FF, CR. -/
def jsIsSpace (c : Char) : Bool :=
  c.toNat = 32 || c.toNat = 9 || c.toNat = 10 || c.toNat = 11 || c.toNat = 12 || c.toNat = 13

/-- JS `\d`, i.e. `[0-9]`. -/
def isDigitC (c : Char) : Bool := 48 ≤ c.toNat && c.toNat ≤ 57

/-- Hexadecimal digit `[0-9a-fA-F]`. -/
def isHexC (c : Char) : Bool :=
  (48 ≤ c.toNat && c.toNat ≤ 57) || (97 ≤ c.toNat && c.toNat ≤ 102) ||
    (65 ≤ c.toNat && c.toNat ≤ 70)

/-- ASCII upper-case letter `[A-Z]`. -/
def isUpperC (c : Char) : Bool := 65 ≤ c.toNat && c.toNat ≤ 90

/-- ASCII lower-case letter `[a-z]`. -/
def isLowerC (c : Char) : Bool := 97 ≤ c.toNat && c.toNat ≤ 122

/-- ASCII letter. -/
def isAlphaC (c : Char) : Bool := isUpperC c || isLowerC c

/-- JS `\w`, i.e. `[A-Za-z0-9_]` (also `[a-z0-9_]` under the `i` flag). -/
def isWordC (c : Char) : Bool := isAlphaC c || isDigitC c || c = '_'

/-- ASCII lower-casing, as `String.prototype.toLowerCase` acts on ASCII. -/
def toLowerC (c : Char) : Char :=
  if 65 ≤ c.toNat && c.toNat ≤ 90 then Char.ofNat (c.toNat + 32) else c

/-- Numeric value of a hexadecimal digit. -/
def hexVal (c : Char) : Nat :=
  if 48 ≤ c.toNat && c.toNat ≤ 57 then c.toNat - 48
  else if 97 ≤ c.toNat && c.toNat ≤ 102 then c.toNat - 87
  else if 65 ≤ c.toNat && c.toNat ≤ 70 then c.toNat - 55
  else 0

/-! ### Basic string utilities (JS semantics) -/

/-- `String.prototype.trim` (ASCII whitespace). -/
def jsTrim (l : List Char) : List Char :=
  ((l.dropWhile jsIsSpace).reverse.dropWhile jsIsSpace).reverse

/-- Case-insensitive comparison of two chars (ASCII). -/
def eqCI (a b : Char) : Bool := toLowerC a = toLowerC b

/-- Strip a literal pattern off the front of `l` (case-sensitive). -/
def stripLit : List Char → List Char → Option (List Char)
  | [], l => some l
  | _, [] => none
  | p :: ps, c :: cs => if p = c then stripLit ps cs else none

/-- Strip a literal pattern off the front of `l`, ASCII case-insensitively. -/
def stripLitCI : List Char → List Char → Option (List Char)
  | [], l => some l
  | _, [] => none
  | p :: ps, c :: cs => if eqCI p c then stripLitCI ps cs else none

/-- Split on runs of whitespace, as `split(/\s+/)` behaves on a string
with no leading whitespace: maximal non-whitespace runs, in order. -/
def splitWsAux : List Char → List Char → List (List Char)
  | acc, [] => if acc.isEmpty then [] else [acc.reverse]
  | acc, c :: cs =>
    if jsIsSpace c then
      if acc.isEmpty then splitWsAux [] cs else acc.reverse :: splitWsAux [] cs
    else splitWsAux (c :: acc) cs

def splitWs (l : List Char) : List (List Char) := splitWsAux [] l

/-- Split on a single character (JS `split('\n')` when `sep = '\n'`). -/
def splitOnCharAux (sep : Char) : List Char → List Char → List (List Char)
  | acc, [] => [acc.reverse]
  | acc, c :: cs =>
    if c = sep then acc.reverse :: splitOnCharAux sep [] cs
    else splitOnCharAux sep (c :: acc) cs

def splitOnChar (sep : Char) (l : List Char) : List (List Char) := splitOnCharAux sep [] l

/-- Split on the two-character separator `"\n\n"` (JS `split('\n\n')`):
leftmost, non-overlapping occurrences. -/
def splitNlNl : Nat → List Char → List Char → List (List Char)
  | 0, acc, l => [(acc.reverse ++ l)]
  | _, acc, [] => [acc.reverse]
  | fuel + 1, acc, c :: cs =>
    match c, cs with
    | '\n', '\n' :: rest => acc.reverse :: splitNlNl fuel [] rest
    | _, _ => splitNlNl fuel (c :: acc) cs

def splitParagraphs (l : List Char) : List (List Char) := splitNlNl l.length [] l

/-! ### JS `parseInt` -/

/-- Decimal value of a digit list (most significant first). -/
def digitsToNat (ds : List Char) : Nat := ds.foldl (fun a c => a * 10 + (c.toNat - 48)) 0

/-- Hexadecimal value of a hex-digit list. -/
def hexDigitsToNat (ds : List Char) : Nat := ds.foldl (fun a c => a * 16 + hexVal c) 0

/-- Optional sign at the front: `(negative?, rest)`. -/
def signSplit (l : List Char) : Bool × List Char :=
  match l with
  | [] => (false, [])
  | c :: r => if c = '-' then (true, r) else if c = '+' then (false, r) else (false, c :: r)

/-- Does the list begin with a `0x`/`0X` hex mark? -/
def hasHexMark (l : List Char) : Bool :=
  match l with
  | c0 :: c1 :: _ => c0 = '0' ∧ (c1 = 'x' ∨ c1 = 'X')
  | _ => false

/-- Remove a leading `0x`/`0X` hex mark if present. -/
def hexMarkStrip (l : List Char) : List Char :=
  match l with
  | c0 :: c1 :: r => if c0 = '0' ∧ (c1 = 'x' ∨ c1 = 'X') then r else c0 :: c1 :: r
  | l => l

/-- Shared tail of `parseInt`: whitespace, sign, optional hex mark, then
the maximal run of radix digits; `none` models `NaN`. -/
def parseIntTail (digitP : Char → Bool) (toVal : List Char → Nat)
    (stripMark : Bool) (l : List Char) : Option Int :=
  let s := signSplit (l.dropWhile jsIsSpace)
  let body := if stripMark then hexMarkStrip s.2 else s.2
  let ds := body.takeWhile digitP
  if ds.isEmpty then none
  else some (if s.1 then -(toVal ds : Int) else (toVal ds : Int))

/-- JS `parseInt(s, 16)`: optional `0x`/`0X` after the sign, hex digits. -/
def jsParseIntHex16 (l : List Char) : Option Int :=
  parseIntTail isHexC hexDigitsToNat true l

/-- JS `parseInt(s)` with no radix: auto-detects a hex literal by the
`0x`/`0X` mark after the sign, otherwise parses decimal digits. -/
def jsParseIntAuto (l : List Char) : Option Int :=
  if hasHexMark (signSplit (l.dropWhile jsIsSpace)).2 then
    parseIntTail isHexC hexDigitsToNat true l
  else parseIntTail isDigitC digitsToNat false l

/-- `value.startsWith('0x')` (case-sensitive). -/
def startsWith0x (l : List Char) : Bool :=
  match l with
  | c0 :: c1 :: _ => c0 = '0' ∧ c1 = 'x'
  | _ => false

/-- `value.startsWith('0x') ? parseInt(value, 16) : parseInt(value)`. -/
def jsParseValue (v : List Char) : Option Int :=
  if startsWith0x v then jsParseIntHex16 v else jsParseIntAuto v

/-! ### Data model -/

inductive RecordType where
  | instruction
  | csr
  | pseudo
deriving DecidableEq, Repr

/-- One bit-range assignment; `value = none` models the JS `NaN` that
`parseInt` produces on a non-numeric value string. -/
structure BitField where
  high : Nat
  low : Nat
  value : Option Int
deriving DecidableEq, Repr

structure Instruction where
  name : String
  extension : String
  operands : List String
  encoding : List BitField
  description : String
  type : RecordType
deriving DecidableEq, Repr

/-- The closed operand vocabulary, copied verbatim from the source
(including the duplicated `c_spimm`, harmless for membership). -/
def KNOWN_OPERANDS : List String :=
  ["rd", "rs1", "rs2", "rs3",
   "imm12", "imm20", "jimm20",
   "bimm12hi", "bimm12lo",
   "simm12hi", "simm12lo",
   "shamtw", "shamtd", "shamt",
   "rm", "aq", "rl",
   "pred", "succ",
   "csr", "zimm",
   "fm",
   "rd_p", "rs1_p", "rs2_p",
   "c_nzuimm10", "c_uimm8sp_s", "c_uimm8sp", "c_uimm7lo", "c_uimm7hi",
   "c_imm6lo", "c_imm6hi", "c_nzimm6lo", "c_nzimm6hi",
   "c_nzuimm5", "c_nzuimm6lo", "c_nzuimm6hi",
   "c_uimm8lo", "c_uimm8hi", "c_uimm9lo", "c_uimm9hi",
   "c_nzimm10hi", "c_nzimm10lo", "c_nzimm18hi", "c_nzimm18lo",
   "c_imm12", "c_bimm9lo", "c_bimm9hi",
   "c_nzimm5", "c_spimm",
   "c_index", "c_rlist", "c_spimm",
   "vd", "vs1", "vs2", "vs3", "vm", "nf", "wd",
   "simm5", "zimm10", "zimm11", "zimm5"]

/-- `KNOWN_OPERANDS.has(part)`. -/
def inOps (s : String) : Bool := KNOWN_OPERANDS.any (fun o => o = s)

/-! ### Encoding-line grammar (`parseEncodingLine`) -/

/-- `/^(\d+)\.\.(\d+)=(.+)$/` applied to one token: digit runs are
maximal, `.+` cannot match a newline. -/
def rangeMatch (s : List Char) : Option (List Char × List Char × List Char) :=
  let ds := s.takeWhile isDigitC
  if ds.isEmpty then none
  else
    match s.dropWhile isDigitC with
    | '.' :: '.' :: r2 =>
      let ds2 := r2.takeWhile isDigitC
      if ds2.isEmpty then none
      else
        match r2.dropWhile isDigitC with
        | '=' :: v => if v.isEmpty || v.any (fun c => c = '\n') then none else some (ds, ds2, v)
        | _ => none
    | _ => none

/-- `/^(\d+)=(.+)$/` applied to one token. -/
def singleMatch (s : List Char) : Option (List Char × List Char) :=
  let ds := s.takeWhile isDigitC
  if ds.isEmpty then none
  else
    match s.dropWhile isDigitC with
    | '=' :: v => if v.isEmpty || v.any (fun c => c = '\n') then none else some (ds, v)
    | _ => none

/-- Classification of one whitespace-delimited token, accumulating
operands and bit fields in source order. -/
def encStep (acc : List String × List BitField) (tok : List Char) :
    List String × List BitField :=
  if inOps (String.mk tok) then (acc.1 ++ [String.mk tok], acc.2)
  else
    match rangeMatch tok with
    | some (h, l, v) =>
      (acc.1, acc.2 ++ [⟨digitsToNat h, digitsToNat l, jsParseValue v⟩])
    | none =>
      match singleMatch tok with
      | some (b, v) =>
        (acc.1, acc.2 ++ [⟨digitsToNat b, digitsToNat b, jsParseValue v⟩])
      | none => acc

/-- `parseEncodingLine`: split the line on whitespace and classify each
token; unrecognized tokens are dropped. -/
def parseEncodingLine (line : String) : List String × List BitField :=
  (splitWs line.data).foldl encStep ([], [])

/-! ### CSR privilege inference -/

/-- The privilege chain from `parseCSVFile`, verbatim: an if/else-if
cascade over the numeric address with default `"U"`. -/
def privilegeOf (addr : Nat) : String :=
  if 0x100 ≤ addr ∧ addr < 0x200 then "S"
  else if 0x200 ≤ addr ∧ addr < 0x300 then "H"
  else if 0x300 ≤ addr ∧ addr < 0x400 then "M"
  else if 0x500 ≤ addr ∧ addr < 0x600 then "S"
  else if 0x600 ≤ addr ∧ addr < 0x700 then "H"
  else if 0x700 ≤ addr ∧ addr < 0x800 then "M"
  else if 0xB00 ≤ addr ∧ addr < 0xC00 then "M"
  else if 0xC00 ≤ addr ∧ addr < 0xD00 then "U"
  else if 0xF00 ≤ addr then "M"
  else "U"

/-- The spec's fixed table of inclusive ranges, in its stated order. -/
def privTable : List (Nat × Nat × String) :=
  [(0x100, 0x1FF, "S"), (0x200, 0x2FF, "H"), (0x300, 0x3FF, "M"),
   (0x500, 0x5FF, "S"), (0x600, 0x6FF, "H"), (0x700, 0x7FF, "M"),
   (0xB00, 0xBFF, "M"), (0xC00, 0xCFF, "U")]

def lookupPriv : List (Nat × Nat × String) → Nat → Option String
  | [], _ => none
  | (lo, hi, p) :: rest, a => if lo ≤ a ∧ a ≤ hi then some p else lookupPriv rest a

/-- Modelled from the spec's words: first matching range wins, `0xF00`
and above gives `M`, default `U`. -/
def privilegeSpec (a : Nat) : String :=
  match lookupPriv privTable a with
  | some p => p
  | none => if 0xF00 ≤ a then "M" else "U"

/-! ### Opcode-file parser (`parseOpcodeFile`) -/

/-- Attempt `/\$pseudo_op\s+\S+\s+(\w+)\s+(.*)/` at the head of `l`.
Digit/word runs are maximal; the analysis of the pattern shows no
productive backtracking exists, so maximal-munch is exact. -/
def pseudoTryAt (l : List Char) : Option (String × String) := do
  let r ← stripLit "$pseudo_op".data l
  let ws1 := r.takeWhile jsIsSpace
  if ws1.isEmpty then none else
  let r1 := r.dropWhile jsIsSpace
  let t1 := r1.takeWhile (fun c => !jsIsSpace c)
  if t1.isEmpty then none else
  let r2 := r1.dropWhile (fun c => !jsIsSpace c)
  let ws2 := r2.takeWhile jsIsSpace
  if ws2.isEmpty then none else
  let r3 := r2.dropWhile jsIsSpace
  let w := r3.takeWhile isWordC
  if w.isEmpty then none else
  let r4 := r3.dropWhile isWordC
  let ws3 := r4.takeWhile jsIsSpace
  if ws3.isEmpty then none else
  let rest := r4.dropWhile jsIsSpace
  if rest.contains '\n' then none else
  some (String.mk w, String.mk rest)

/-- Unanchored search for the `$pseudo_op` pattern (JS `String.match`). -/
def pseudoScan : List Char → Option (String × String)
  | [] => none
  | c :: cs =>
    match pseudoTryAt (c :: cs) with
    | some r => some r
    | none => pseudoScan cs

/-- `/^[a-z0-9_.]+$/i` on the candidate mnemonic. -/
def nameOk (s : List Char) : Bool :=
  !s.isEmpty && s.all (fun c => isAlphaC c || isDigitC c || c = '_' || c = '.')

/-- The whitespace tokens of a trimmed line. -/
def lineTokens (line : String) : List String :=
  (splitWs (jsTrim line.data)).map String.mk

/-- `parts.slice(1).join(' ')`. -/
def restLine (line : String) : String :=
  " ".intercalate ((lineTokens line).drop 1)

/-- The non-directive tail of line processing: candidate mnemonic plus
encoding tokens, emitted only when some bit field was recovered. -/
def processTail (ext : String) (toks : List String) : List Instruction :=
  match toks with
  | [] => []
  | [_] => []
  | nm :: tokRest =>
    if nameOk nm.data then
      let pe := parseEncodingLine (" ".intercalate tokRest)
      if pe.2.isEmpty then []
      else [⟨nm, ext, pe.1, pe.2, "", RecordType.instruction⟩]
    else []

/-- What one line of an opcode file contributes to the output list. -/
def processLine (ext line : String) : List Instruction :=
  let t := jsTrim line.data
  if t.isEmpty then []
  else if t.head? = some '#' ∨ t.head? = some '@' then []
  else if "$pseudo_op".data.isPrefixOf t then
    match pseudoScan t with
    | some (nm, rest) =>
      let pe := parseEncodingLine rest
      [⟨nm, ext, pe.1, pe.2, "", RecordType.pseudo⟩]
    | none => []
  else if "$import".data.isPrefixOf t then []
  else processTail ext (lineTokens line)

/-- `parseOpcodeFile`: split the file on newlines and process each line. -/
def parseOpcodeFile (content ext : String) : List Instruction :=
  ((splitOnChar '\n' content.data).map String.mk).flatMap (processLine ext)

/-! ### Instruction deduplication (`main`, first-occurrence-wins) -/

/-- The dedup loop: a `Map` keyed by name, first occurrence kept, values
emitted in insertion order. -/
def dedupGo : List String → List Instruction → List Instruction
  | _, [] => []
  | seen, i :: rest =>
    if i.name ∈ seen then dedupGo seen rest
    else i :: dedupGo (i.name :: seen) rest

def dedupInstructions (l : List Instruction) : List Instruction := dedupGo [] l

/-! ### Markup cleaning (`cleanAdocText`)

Each global regex replacement is a left-to-right scan: at every
position the pattern is attempted; on a match its replacement is
emitted and scanning resumes after the match, otherwise one character
is copied.  Matchers return `(replacement, rest)` and always consume at
least one character, so fuel equal to the input length is exact. -/

/-- Generic scan-and-replace driver. -/
def scanRep (f : List Char → Option (List Char × List Char)) :
    Nat → List Char → List Char
  | 0, l => l
  | _, [] => []
  | fuel + 1, c :: cs =>
    match f (c :: cs) with
    | some (rep, rest) => rep ++ scanRep f fuel rest
    | none => c :: scanRep f fuel cs

def runRep (f : List Char → Option (List Char × List Char)) (l : List Char) :
    List Char :=
  scanRep f l.length l

/-- `\[#norm:[^\]]+\]#([^#]+)#` replaced by the capture. -/
def tryNormSpan (l : List Char) : Option (List Char × List Char) := do
  let r ← stripLit "[#norm:".data l
  let a := r.takeWhile (fun c => c ≠ ']')
  if a.isEmpty then none else
  match r.dropWhile (fun c => c ≠ ']') with
  | ']' :: '#' :: r3 =>
    let b := r3.takeWhile (fun c => c ≠ '#')
    if b.isEmpty then none else
    match r3.dropWhile (fun c => c ≠ '#') with
    | '#' :: r5 => some (b, r5)
    | _ => none
  | _ => none

/-- `<<[^>]+>>` removed. -/
def tryCrossref (l : List Char) : Option (List Char × List Char) := do
  let r ← stripLit "<<".data l
  let a := r.takeWhile (fun c => c ≠ '>')
  if a.isEmpty then none else
  match r.dropWhile (fun c => c ≠ '>') with
  | '>' :: '>' :: r3 => some ([], r3)
  | _ => none

/-- `\[\[[^\]]+\]\]` removed. -/
def tryAnchorDef (l : List Char) : Option (List Char × List Char) := do
  let r ← stripLit "[[".data l
  let a := r.takeWhile (fun c => c ≠ ']')
  if a.isEmpty then none else
  match r.dropWhile (fun c => c ≠ ']') with
  | ']' :: ']' :: r3 => some ([], r3)
  | _ => none

/-- Emphasis pair with a one-character delimiter: `d([^d]+)d` kept as
the capture. -/
def tryDelim (d : Char) (l : List Char) : Option (List Char × List Char) :=
  match l with
  | c :: r =>
    if c = d then
      let a := r.takeWhile (fun x => x ≠ d)
      if a.isEmpty then none
      else
        match r.dropWhile (fun x => x ≠ d) with
        | e :: r3 => if e = d then some (a, r3) else none
        | [] => none
    else none
  | [] => none

/-- `\*\*([^*]+)\*\*` kept as the capture. -/
def tryBold (l : List Char) : Option (List Char × List Char) := do
  let r ← stripLit "**".data l
  let a := r.takeWhile (fun c => c ≠ '*')
  if a.isEmpty then none else
  match r.dropWhile (fun c => c ≠ '*') with
  | '*' :: '*' :: r3 => some (a, r3)
  | _ => none

/-- `footnote:\[[^\]]*\]` removed (the bracket body may be empty). -/
def tryFootnote (l : List Char) : Option (List Char × List Char) := do
  let r ← stripLit "footnote:[".data l
  match r.dropWhile (fun c => c ≠ ']') with
  | ']' :: r3 => some ([], r3)
  | _ => none

/-- One attempt of `^\[%[^\]]+\]\s*` at a line start.  Returns the rest
and whether the consumed text ended with a newline (which re-establishes
the line-start anchor). -/
def tryAttrLine (l : List Char) : Option (Bool × List Char) := do
  let r ← stripLit "[%".data l
  let a := r.takeWhile (fun c => c ≠ ']')
  if a.isEmpty then none else
  match r.dropWhile (fun c => c ≠ ']') with
  | ']' :: r3 =>
    let ws := r3.takeWhile jsIsSpace
    some (ws.getLast? = some '\n', r3.dropWhile jsIsSpace)
  | _ => none

/-- The `^\[%[^\]]+\]\s*` (gm) stage, tracking the line-start anchor. -/
def attrScan : Nat → Bool → List Char → List Char
  | 0, _, l => l
  | _, _, [] => []
  | fuel + 1, atStart, c :: cs =>
    if atStart then
      match tryAttrLine (c :: cs) with
      | some (endNl, rest) => attrScan fuel endNl rest
      | none => c :: attrScan fuel (c = '\n') cs
    else c :: attrScan fuel (c = '\n') cs

/-- The `^:.*$` (gm) stage: the content of every line starting with a
colon is deleted (newlines stay). -/
def colonStage (l : List Char) : List Char :=
  "\n".data.intercalate
    ((splitOnChar '\n' l).map (fun line => if line.head? = some ':' then [] else line))

/-- `\s+` collapsed to single spaces (the flag records whether the
previous character was whitespace). -/
def collapseWs : Bool → List Char → List Char
  | _, [] => []
  | prevWs, c :: cs =>
    if jsIsSpace c then
      if prevWs then collapseWs true cs else ' ' :: collapseWs true cs
    else c :: collapseWs false cs

/-- The twelve stages of `cleanAdocText`, in source order. -/
def cleanStage1 (l : List Char) : List Char := runRep tryNormSpan l
def cleanStage2 (l : List Char) : List Char := runRep tryCrossref l
def cleanStage3 (l : List Char) : List Char := runRep tryAnchorDef l
def cleanStage4 (l : List Char) : List Char := runRep tryBold l
def cleanStage5 (l : List Char) : List Char := runRep (tryDelim '*') l
def cleanStage6 (l : List Char) : List Char := runRep (tryDelim '_') l
def cleanStage7 (l : List Char) : List Char := runRep (tryDelim '`') l
def cleanStage8 (l : List Char) : List Char := runRep tryFootnote l
def cleanStage9 (l : List Char) : List Char := attrScan l.length true l
def cleanStage10 (l : List Char) : List Char := colonStage l
def cleanStage11 (l : List Char) : List Char := collapseWs false l
def cleanStage12 (l : List Char) : List Char := jsTrim l

/-- `cleanAdocText` on character lists. -/
def cleanL (l : List Char) : List Char :=
  cleanStage12 (cleanStage11 (cleanStage10 (cleanStage9 (cleanStage8
    (cleanStage7 (cleanStage6 (cleanStage5 (cleanStage4 (cleanStage3
      (cleanStage2 (cleanStage1 l)))))))))))

/-- `cleanAdocText` on strings. -/
def cleanAdocText (s : String) : String := String.mk (cleanL s.data)

/-- The cleaned text is a fixed point of every individual stage. -/
def CleanFixed (l : List Char) : Prop :=
  cleanStage1 l = l ∧ cleanStage2 l = l ∧ cleanStage3 l = l ∧
  cleanStage4 l = l ∧ cleanStage5 l = l ∧ cleanStage6 l = l ∧
  cleanStage7 l = l ∧ cleanStage8 l = l ∧ cleanStage9 l = l ∧
  cleanStage10 l = l ∧ cleanStage11 l = l ∧ cleanStage12 l = l

instance (l : List Char) : Decidable (CleanFixed l) := by
  unfold CleanFixed; infer_instance

/-! ### Description maps (JS `Map` with string keys) -/

/-- Association list in insertion order; `set` updates in place. -/
abbrev DescMap := List (String × String)

def mapGet : DescMap → String → Option String
  | [], _ => none
  | (k', v') :: rest, k => if k' = k then some v' else mapGet rest k

def mapSet : DescMap → String → String → DescMap
  | [], k, v => [(k, v)]
  | (k', v') :: rest, k, v =>
    if k' = k then (k, v) :: rest else (k', v') :: mapSet rest k v

def mapHas (m : DescMap) (k : String) : Bool := (mapGet m k).isSome

/-! ### Strategy 1: normative-anchor scan -/

/-- `[^\]]*\]#([^#]+)#`: skip to the next `]`, require `#`, capture the
nonempty span up to the next `#`. -/
def tailNorm (x : List Char) : Option (List Char × List Char) :=
  match x.dropWhile (fun c => c ≠ ']') with
  | ']' :: '#' :: r3 =>
    let b := r3.takeWhile (fun c => c ≠ '#')
    if b.isEmpty then none
    else
      match r3.dropWhile (fun c => c ≠ '#') with
      | '#' :: r5 => some (b, r5)
      | _ => none
  | _ => none

/-- `(?:op|desc|enc|behavior)` case-insensitively (the alternatives have
distinct first letters, so at most one applies). -/
def kindStripCI (l : List Char) : Option (List Char) :=
  match stripLitCI "op".data l with
  | some r => some r
  | none =>
    match stripLitCI "desc".data l with
    | some r => some r
    | none =>
      match stripLitCI "enc".data l with
      | some r => some r
      | none => stripLitCI "behavior".data l

/-- Backtracking over the greedy group `([a-z0-9_]+)` of strategy 1:
candidate lengths are tried from longest to shortest; each requires `_`,
a kind, then the bracket tail. -/
def strat1Split (run rest0 : List Char) : Nat → Option (String × String × List Char)
  | 0 => none
  | kc + 1 =>
    match run.drop (kc + 1) with
    | '_' :: kr =>
      match kindStripCI kr with
      | some afterKind =>
        match tailNorm (afterKind ++ rest0) with
        | some (b, r5) =>
          some (String.mk ((run.take (kc + 1)).map toLowerC), String.mk b, r5)
        | none => strat1Split run rest0 kc
      | none => strat1Split run rest0 kc
    | _ => strat1Split run rest0 kc

/-- One attempt of
`\[#norm:([a-z0-9_]+)_(?:op|desc|enc|behavior)[^\]]*\]#([^#]+)#` (`i`). -/
def tryStrat1 (l : List Char) : Option (String × String × List Char) := do
  let r ← stripLitCI "[#norm:".data l
  let run := r.takeWhile isWordC
  if run.isEmpty then none else
  strat1Split run (r.dropWhile isWordC) (run.length - 1)

def strat1Scan : Nat → List Char → List (String × String)
  | 0, _ => []
  | _, [] => []
  | fuel + 1, c :: cs =>
    match tryStrat1 (c :: cs) with
    | some (nm, d, rest) => (nm, d) :: strat1Scan fuel rest
    | none => strat1Scan fuel cs

/-- The loop body of strategy 1: clean the span, keep it only when its
cleaned length is strictly greater than 10, appending to a nonempty
existing entry with a separating space. -/
def strat1Apply (m : DescMap) (p : String × String) : DescMap :=
  let desc := cleanAdocText p.2
  if desc.length > 10 then
    let existing := (mapGet m p.1).getD ""
    if existing ≠ "" then mapSet m p.1 (existing ++ " " ++ desc)
    else mapSet m p.1 desc
  else m

def strategy1 (doc : List Char) (m : DescMap) : DescMap :=
  (strat1Scan doc.length doc).foldl strat1Apply m

/-! ### Strategy 2: section-heading scan -/

/-- Index of the last newline in `l`, if any. -/
def lastNlIdx (l : List Char) : Option Nat :=
  (l.reverse.findIdx? (fun c => c = '\n')).map (fun i => l.length - 1 - i)

/-- One attempt of `^(={2,4})\s+([A-Z][A-Z0-9.]+)\s*$` (`m`) at a line
start.  Returns the heading level, the lower-cased name, whether the
matched text ends with a newline (re-establishing the `^` anchor), and
the remainder of the document after the match. -/
def headingTryAt (l : List Char) : Option (Nat × String × Bool × List Char) :=
  let eqs := l.takeWhile (fun c => c = '=')
  let k := eqs.length
  if k < 2 ∨ 4 < k then none
  else
    let r0 := l.drop k
    let ws1 := r0.takeWhile jsIsSpace
    if ws1.isEmpty then none
    else
      let r1 := r0.dropWhile jsIsSpace
      match r1.head? with
      | none => none
      | some c =>
        if isUpperC c then
          let nm := r1.takeWhile (fun x => isUpperC x || isDigitC x || x = '.')
          if nm.length < 2 then none
          else
            let r2 := r1.drop nm.length
            let wsFull := r2.takeWhile jsIsSpace
            let afterWs := r2.drop wsFull.length
            let nmStr := String.mk (nm.map toLowerC)
            if afterWs.isEmpty then
              some (k, nmStr, wsFull.getLast? = some '\n', [])
            else
              match lastNlIdx wsFull with
              | none => none
              | some j =>
                some (k, nmStr, (wsFull.take j).getLast? = some '\n',
                      wsFull.drop j ++ afterWs)
        else none

/-- All heading matches (`matchAll` with `gm`), each paired with the
document remainder starting right after the match. -/
def headingScan : Nat → Bool → List Char → List (Nat × String × List Char)
  | 0, _, _ => []
  | _, _, [] => []
  | fuel + 1, atStart, c :: cs =>
    if atStart then
      match headingTryAt (c :: cs) with
      | some (k, nm, newAt, rest) => (k, nm, rest) :: headingScan fuel newAt rest
      | none => headingScan fuel (c = '\n') cs
    else headingScan fuel (c = '\n') cs

/-- Does `^={2,lvl}\s+` match at this position? -/
def nextHeadingHere (lvl : Nat) (l : List Char) : Bool :=
  let k := (l.takeWhile (fun c => c = '=')).length
  2 ≤ k && k ≤ lvl &&
    (match l.drop k with
     | c :: _ => jsIsSpace c
     | [] => false)

/-- `content.slice(startIdx).search(nextHeadingRegex)`. -/
def searchNH (lvl : Nat) : Nat → Bool → Nat → List Char → Option Nat
  | 0, _, _, _ => none
  | _, _, _, [] => none
  | fuel + 1, atStart, idx, c :: cs =>
    if atStart ∧ nextHeadingHere lvl (c :: cs) then some idx
    else searchNH lvl fuel (c = '\n') (idx + 1) cs

/-- The section body: up to the next heading of equal-or-shallower
level, capped at 2000 characters when none is found. -/
def sectionOf (lvl : Nat) (rest : List Char) : List Char :=
  match searchNH lvl rest.length true 0 rest with
  | some i => rest.take i
  | none => rest.take 2000

/-- All `\[#norm:[^\]]+\]#([^#]+)#` captures inside a section (case
sensitive), each cleaned. -/
def normCapScan : Nat → List Char → List (List Char)
  | 0, _ => []
  | _, [] => []
  | fuel + 1, c :: cs =>
    match tryNormSpan (c :: cs) with
    | some (b, rest) => b :: normCapScan fuel rest
    | none => normCapScan fuel cs

def sectionNormTexts (sec : List Char) : List String :=
  (normCapScan sec.length sec).map (fun t => String.mk (cleanL t))

/-- The first paragraph whose cleaned text is longer than 30
characters, contains no `|`, and does not start (after trimming) with
`[`; returns the cleaned text. -/
def firstQualifyingPara (sec : List Char) : Option String :=
  (splitParagraphs sec).findSome? (fun para =>
    let c := cleanL para
    if 30 < c.length ∧ ¬ c.contains '|' ∧ ¬ ((jsTrim para).head? = some '[')
    then some (String.mk c) else none)

/-- The per-heading map update of strategy 2: a nonempty normative
concatenation is written under longer-wins; otherwise the first
qualifying paragraph fills only if absent. -/
def strat2Update (m : DescMap) (nm : String) (sec : List Char) : DescMap :=
  let norms := sectionNormTexts sec
  if norms.isEmpty then
    match firstQualifyingPara sec with
    | some c => if mapHas m nm then m else mapSet m nm (String.mk (c.data.take 500))
    | none => m
  else
    let combined := " ".intercalate norms
    if ¬ mapHas m nm ∨ ((mapGet m nm).getD "").length < combined.length
    then mapSet m nm combined else m

def strategy2 (doc : List Char) (m : DescMap) : DescMap :=
  (headingScan doc.length true doc).foldl
    (fun m' e => strat2Update m' e.2.1 (sectionOf e.1 e.2.2)) m

/-! ### Strategy 3: prose-pattern scan -/

/-- `([^.]+\.)`: nonempty run of non-dots followed by a dot, captured
with the dot. -/
def tailDot (r : List Char) : Option (List Char × List Char) :=
  let cap := r.takeWhile (fun c => c ≠ '.')
  if cap.isEmpty then none
  else
    match r.dropWhile (fun c => c ≠ '.') with
    | '.' :: r5 => some (cap ++ ['.'], r5)
    | _ => none

/-- The verb alternatives of the prose pattern, in source order; the
flag records an optional trailing `s`. -/
def verbAlts : List (List Char × Bool) :=
  [("perform".data, true), ("is".data, false), ("compute".data, true),
   ("load".data, true), ("store".data, true), ("write".data, true),
   ("read".data, true), ("set".data, true), ("clear".data, true),
   ("add".data, true), ("subtract".data, true), ("multiplie".data, true),
   ("divide".data, true), ("shift".data, true), ("rotate".data, true),
   ("branche".data, true), ("jump".data, true), ("call".data, true),
   ("return".data, true), ("atomically".data, false),
   ("sign-extend".data, true), ("zero-extend".data, true)]

/-- Try each verb alternative in order; a greedy optional `s` is taken
first and given back if the dot-tail fails. -/
def tryVerbThen : List (List Char × Bool) → List Char → Option (List Char × List Char)
  | [], _ => none
  | (stem, hasS) :: more, l =>
    match stripLitCI stem l with
    | some r =>
      let attempt :=
        if hasS then
          match r with
          | c :: r2 =>
            if eqCI c 's' then
              match tailDot r2 with
              | some x => some x
              | none => tailDot r
            else tailDot r
          | [] => tailDot r
        else tailDot r
      match attempt with
      | some x => some x
      | none => tryVerbThen more l
    | none => tryVerbThen more l

/-- The mnemonic-and-verb core after the prefix: an optional backtick,
the greedy group `([A-Z][A-Z0-9.]*)` under `i`, an optional backtick,
whitespace, an optional `instruction` word, a verb, and the dot tail. -/
def strat3Core (l : List Char) : Option (String × List Char × List Char) :=
  let l1 := match l with | '`' :: r => r | _ => l
  match l1.head? with
  | none => none
  | some c =>
    if isAlphaC c then
      let g1 := l1.takeWhile (fun x => isAlphaC x || isDigitC x || x = '.')
      let r2 := l1.drop g1.length
      let r3 := match r2 with | '`' :: r => r | _ => r2
      let ws := r3.takeWhile jsIsSpace
      if ws.isEmpty then none
      else
        let r4 := r3.dropWhile jsIsSpace
        let withInstr :=
          match stripLitCI "instruction".data r4 with
          | some r5 =>
            let ws2 := r5.takeWhile jsIsSpace
            if ws2.isEmpty then none
            else tryVerbThen verbAlts (r5.dropWhile jsIsSpace)
          | none => none
        match (match withInstr with | some x => some x | none => tryVerbThen verbAlts r4) with
        | some (cap, rest) => some (String.mk g1, cap, rest)
        | none => none
    else none

/-- The core with the optional `The` article. -/
def strat3AfterAnchor (l : List Char) : Option (String × List Char × List Char) :=
  let withThe :=
    match stripLitCI "The".data l with
    | some r =>
      let ws := r.takeWhile jsIsSpace
      if ws.isEmpty then none else strat3Core (r.dropWhile jsIsSpace)
    | none => none
  match withThe with
  | some x => some x
  | none => strat3Core l

/-- The `\.\s+` branch of the prefix `(?:^|\.\s+)`. -/
def strat3DotBranch (l : List Char) : Option ((String × List Char) × List Char) :=
  match l with
  | '.' :: r =>
    let ws := r.takeWhile jsIsSpace
    if ws.isEmpty then none
    else
      match strat3AfterAnchor (r.dropWhile jsIsSpace) with
      | some (g1, cap, rest) => some ((g1, cap), rest)
      | none => none
  | _ => none

/-- One attempt of the prose pattern; at position zero the `^`
alternative is tried before the `\.\s+` one. -/
def tryStrat3At (atZero : Bool) (l : List Char) : Option ((String × List Char) × List Char) :=
  if atZero then
    match strat3AfterAnchor l with
    | some (g1, cap, rest) => some ((g1, cap), rest)
    | none => strat3DotBranch l
  else strat3DotBranch l

def strat3Scan : Nat → Bool → List Char → List (String × List Char)
  | 0, _, _ => []
  | _, _, [] => []
  | fuel + 1, atZero, c :: cs =>
    match tryStrat3At atZero (c :: cs) with
    | some (pr, rest) => pr :: strat3Scan fuel false rest
    | none => strat3Scan fuel false cs

/-- The loop body of strategy 3: lower-case the mnemonic, build and
clean the description, store only if long enough and absent. -/
def strat3Apply (m : DescMap) (p : String × List Char) : DescMap :=
  let nm := String.mk (p.1.data.map toLowerC)
  let fullDesc := jsTrim (p.1.data ++ ' ' :: p.2)
  let cleaned := String.mk (cleanL fullDesc)
  if 20 < cleaned.length ∧ ¬ mapHas m nm then mapSet m nm cleaned else m

def strategy3 (doc : List Char) (m : DescMap) : DescMap :=
  (strat3Scan doc.length true doc).foldl strat3Apply m

/-- The instruction-description map a single document contributes,
strategies 1–3 in order from the empty map. -/
def extractInstrDescs (doc : String) : DescMap :=
  strategy3 doc.data (strategy2 doc.data (strategy1 doc.data []))

/-! ### Strategy 4 (CSR section headings): per-section map update -/

/-- The per-heading map update of strategy 4: both the normative
concatenation and the first-paragraph fallback are written with a plain
`set`. -/
def csrSectionUpdate (m : DescMap) (nm : String) (sec : List Char) : DescMap :=
  let norms := sectionNormTexts sec
  if norms.isEmpty then
    match firstQualifyingPara sec with
    | some c => mapSet m nm (String.mk (c.data.take 500))
    | none => m
  else mapSet m nm (" ".intercalate norms)

/-! ### Spec-side notions for the grammar claims -/

/-- A decimal literal in the spec's sense: nonempty, all `[0-9]`. -/
def isDecLit (v : String) : Prop := v.data ≠ [] ∧ ∀ c ∈ v.data, isDigitC c = true

/-- A hexadecimal literal carrying the `0x` prefix. -/
def isHexLit (v : String) : Prop :=
  ∃ ds, v.data = '0' :: 'x' :: ds ∧ ds ≠ [] ∧ ∀ c ∈ ds, isHexC c = true

/-- The value of a literal, per the spec's words: hexadecimal when the
`0x` prefix is present, decimal otherwise. -/
def litVal (v : String) : Int :=
  if startsWith0x v.data then (hexDigitsToNat (v.data.drop 2) : Int)
  else (digitsToNat v.data : Int)

/-! ### Concrete scenario inputs -/

/-- The end-to-end scenario A line, with its mnemonic. -/
def scenarioALine : String :=
  "add 31..25=0 24..20=rs2 19..15=rs1 14..12=0 11..7=rd 6..0=0x33"

/-- The end-to-end scenario D document. -/
def scenarioDDoc : String := "[#norm:add_op]#ADD performs integer addition.#"

/-- A document holding a normative anchor for `add` plus an `ADD`
section heading whose fallback paragraph is shorter. -/
def normVsFallbackDoc : String :=
  "[#norm:add_op]#ADD performs addition of rs1 and rs2 writing into destination rd#\n\n== ADD\n\nA standard register encoding with three fields\n"

/-- A prior CSR description map with an entry for `fcsr`. -/
def csrMapBefore : DescMap := [("fcsr", "OLD")]

/-- A CSR section body with no normative spans and one qualifying
paragraph. -/
def csrSecNoNorm : String :=
  "\nThis register holds control bits for rounding mode selection\n"

/-! ## Helper lemmas -/

theorem takeWhile_all {p : Char → Bool} :
    ∀ {l : List Char}, (∀ c ∈ l, p c = true) → l.takeWhile p = l := by
  intro l h
  induction l with
  | nil => rfl
  | cons c cs ih =>
    rw [List.takeWhile_cons, h c (List.mem_cons_self c cs)]
    exact congrArg (c :: ·) (ih fun x hx => h x (List.mem_cons_of_mem c hx))

theorem takeWhile_app (p : Char → Bool) (xs : List Char) (y : Char) (rest : List Char) :
    (∀ c ∈ xs, p c = true) → p y = false →
    (xs ++ y :: rest).takeWhile p = xs ∧ (xs ++ y :: rest).dropWhile p = y :: rest := by
  induction xs with
  | nil =>
    intro _ hy
    simp [List.takeWhile_cons, List.dropWhile_cons, hy]
  | cons x xs ih =>
    intro hxs hy
    have hx : p x = true := hxs x (List.mem_cons_self x xs)
    have ih' := ih (fun c hc => hxs c (List.mem_cons_of_mem x hc)) hy
    simp [List.takeWhile_cons, List.dropWhile_cons, hx, ih'.1, ih'.2]

theorem dropWhile_head_false {p : Char → Bool} {c : Char} {cs : List Char}
    (h : p c = false) : (c :: cs).dropWhile p = c :: cs := by
  simp [List.dropWhile_cons, h]

theorem splitWsAux_single :
    ∀ (tok : List Char) (acc : List Char), (∀ c ∈ tok, jsIsSpace c = false) →
      (acc ≠ [] ∨ tok ≠ []) → splitWsAux acc tok = [acc.reverse ++ tok] := by
  intro tok
  induction tok with
  | nil =>
    intro acc _ hne
    have hacc : acc ≠ [] := hne.resolve_right fun h => (h rfl).elim
    have he : acc.isEmpty = false := by
      cases acc with
      | nil => exact absurd rfl hacc
      | cons _ _ => rfl
    simp [splitWsAux, he]
  | cons c cs ih =>
    intro acc h _
    have hc : jsIsSpace c = false := h c (List.mem_cons_self c cs)
    have := ih (c :: acc) (fun x hx => h x (List.mem_cons_of_mem c hx)) (Or.inl (by simp))
    simp only [splitWsAux, hc, Bool.false_eq_true, if_false, this, List.reverse_cons,
      List.append_assoc, List.cons_append, List.nil_append]

theorem splitWs_single {tok : List Char} (h1 : tok ≠ [])
    (h2 : ∀ c ∈ tok, jsIsSpace c = false) : splitWs tok = [tok] := by
  have := splitWsAux_single tok [] h2 (Or.inr h1)
  simpa [splitWs] using this

theorem mapGet_mapSet_self (m : DescMap) (k v : String) :
    mapGet (mapSet m k v) k = some v := by
  induction m with
  | nil => simp [mapSet, mapGet]
  | cons p rest ih =>
    obtain ⟨k', v'⟩ := p
    by_cases h : k' = k
    · simp [mapSet, mapGet, h]
    · simp [mapSet, mapGet, h, ih]

/-! ## Claim C2: CSR privilege inference -/

/-- C2: for every CSR address the inferred privilege is the pure
function `privilegeOf` of the address alone, and it matches the spec's
ordered range table exactly (first match wins, default `"U"`); in
particular `0x305 ↦ "M"` and `0xC01 ↦ "U"`. -/
theorem privilege_matches_table :
    (∀ a : Nat, privilegeOf a = privilegeSpec a) ∧
    privilegeOf 0x305 = "M" ∧ privilegeOf 0xC01 = "U" := by
  refine ⟨fun a => ?_, by decide, by decide⟩
  have expand : privilegeSpec a =
      if 0x100 ≤ a ∧ a ≤ 0x1FF then "S"
      else if 0x200 ≤ a ∧ a ≤ 0x2FF then "H"
      else if 0x300 ≤ a ∧ a ≤ 0x3FF then "M"
      else if 0x500 ≤ a ∧ a ≤ 0x5FF then "S"
      else if 0x600 ≤ a ∧ a ≤ 0x6FF then "H"
      else if 0x700 ≤ a ∧ a ≤ 0x7FF then "M"
      else if 0xB00 ≤ a ∧ a ≤ 0xBFF then "M"
      else if 0xC00 ≤ a ∧ a ≤ 0xCFF then "U"
      else if 0xF00 ≤ a then "M" else "U" := by
    simp only [privilegeSpec, privTable, lookupPriv]
    split_ifs <;> rfl
  rw [expand]
  unfold privilegeOf
  exact if_congr (by omega) rfl (if_congr (by omega) rfl (if_congr (by omega) rfl
    (if_congr (by omega) rfl (if_congr (by omega) rfl (if_congr (by omega) rfl
      (if_congr (by omega) rfl (if_congr (by omega) rfl rfl)))))))

/-! ## Claim C1: end-to-end scenario A -/

set_option maxHeartbeats 2000000 in
/-- C1 counterexample: parsing the scenario-A line for mnemonic `add`
does not produce an Instruction whose operand list is
`["rs2", "rs1", "rd"]` — the operand list is empty, because tokens such
as `24..20=rs2` are bit-range assignments, not operand tokens. -/
theorem scenarioA_not_as_claimed :
    (parseOpcodeFile scenarioALine "rv_i").map Instruction.operands ≠
      [["rs2", "rs1", "rd"]] := by
  decide

set_option maxHeartbeats 2000000 in
/-- C1 amended: the scenario-A line yields exactly one Instruction with
empty operand list and six bit fields, three of which carry the `NaN`
value produced by `parseInt` on `rs2`/`rs1`/`rd`. -/
theorem scenarioA_parse :
    parseOpcodeFile scenarioALine "rv_i" =
      [{ name := "add", extension := "rv_i", operands := [],
         encoding := [⟨31, 25, some 0⟩, ⟨24, 20, none⟩, ⟨19, 15, none⟩,
                      ⟨14, 12, some 0⟩, ⟨11, 7, none⟩, ⟨6, 0, some 51⟩],
         description := "", type := RecordType.instruction }] := by
  decide

/-! ## Claim C6: cleaning idempotence -/

set_option maxHeartbeats 2000000 in
/-- C6 counterexample: cleaning is not idempotent; on `"__a__"` the
first pass yields `"_a_"` and a second pass strips further. -/
theorem clean_not_idempotent_at :
    cleanAdocText (cleanAdocText "__a__") ≠ cleanAdocText "__a__" := by
  decide

/-- C6 amended: a second cleaning pass is the identity on any input
whose cleaned character sequence is a fixed point of every individual
cleaning stage; in general `clean` is not idempotent (see the
counterexample). -/
theorem clean_idempotent_of_fixed (x : List Char) (h : CleanFixed (cleanL x)) :
    cleanL (cleanL x) = cleanL x := by
  obtain ⟨h1, h2, h3, h4, h5, h6, h7, h8, h9, h10, h11, h12⟩ := h
  generalize cleanL x = y at h1 h2 h3 h4 h5 h6 h7 h8 h9 h10 h11 h12 ⊢
  unfold cleanL
  rw [h1, h2, h3, h4, h5, h6, h7, h8, h9, h10, h11, h12]

set_option maxHeartbeats 2000000 in
theorem clean_idempotent_of_fixed_witness :
    cleanL (cleanL "hello world".data) = cleanL "hello world".data :=
  clean_idempotent_of_fixed "hello world".data (by decide)

/-! ## Claim C5: CSR section-heading overwrite semantics -/

set_option maxHeartbeats 2000000 in
/-- C5 counterexample: in the CSR section scan the first-paragraph
fallback does not fill only if absent — it overwrites the prior
`"OLD"` entry for `fcsr`. -/
theorem csr_fallback_overwrites :
    mapGet (csrSectionUpdate csrMapBefore "fcsr" csrSecNoNorm.data) "fcsr" ≠
      some "OLD" := by
  decide

/-- C5 amended: for every matched register heading, a nonempty
normative-span concatenation replaces any prior entry unconditionally,
and the first-paragraph fallback also replaces any prior entry
unconditionally (rather than filling only if absent); with no norms and
no qualifying paragraph the map is unchanged. -/
theorem csr_section_semantics (m : DescMap) (nm : String) (sec : List Char) :
    (sectionNormTexts sec ≠ [] →
      mapGet (csrSectionUpdate m nm sec) nm =
        some (" ".intercalate (sectionNormTexts sec))) ∧
    (sectionNormTexts sec = [] → ∀ c, firstQualifyingPara sec = some c →
      mapGet (csrSectionUpdate m nm sec) nm = some (String.mk (c.data.take 500))) ∧
    (sectionNormTexts sec = [] → firstQualifyingPara sec = none →
      csrSectionUpdate m nm sec = m) := by
  refine ⟨fun h => ?_, fun h c hc => ?_, fun h hn => ?_⟩
  · have he : (sectionNormTexts sec).isEmpty = false := by
      cases hq : sectionNormTexts sec with
      | nil => exact absurd hq h
      | cons _ _ => rfl
    simp [csrSectionUpdate, he, mapGet_mapSet_self]
  · simp [csrSectionUpdate, h, hc, mapGet_mapSet_self]
  · simp [csrSectionUpdate, h, hn]

set_option maxHeartbeats 2000000 in
theorem csr_section_semantics_witness :
    mapGet (csrSectionUpdate csrMapBefore "add" scenarioDDoc.data) "add" =
        some "ADD performs integer addition." ∧
    mapGet (csrSectionUpdate csrMapBefore "fcsr" csrSecNoNorm.data) "fcsr" =
        some "This register holds control bits for rounding mode selection" ∧
    csrSectionUpdate csrMapBefore "fcsr" "short".data = csrMapBefore :=
  ⟨((csr_section_semantics csrMapBefore "add" scenarioDDoc.data).1
      (by decide)).trans (by decide),
   ((csr_section_semantics csrMapBefore "fcsr" csrSecNoNorm.data).2.1
      (by decide) "This register holds control bits for rounding mode selection"
      (by decide)).trans (by decide),
   (csr_section_semantics csrMapBefore "fcsr" "short".data).2.2
      (by decide) (by decide)⟩

/-! ## Claim C10: strategy-1 length threshold -/

/-- C10: the normative-anchor scan's per-match update stores or appends
a span only when its cleaned text is strictly longer than 10
characters; a span whose cleaned text has length at most 10 leaves the
map unchanged. -/
theorem strat1_threshold (m : DescMap) (nm raw : String) :
    ((cleanAdocText raw).length ≤ 10 → strat1Apply m (nm, raw) = m) ∧
    (10 < (cleanAdocText raw).length →
      mapGet (strat1Apply m (nm, raw)) nm =
        some (if (mapGet m nm).getD "" = "" then cleanAdocText raw
              else (mapGet m nm).getD "" ++ " " ++ cleanAdocText raw)) := by
  constructor
  · intro h
    unfold strat1Apply
    have hc : ¬ 10 < (cleanAdocText (nm, raw).2).length := Nat.not_lt.mpr h
    rw [if_neg hc]
  · intro h
    unfold strat1Apply
    rw [if_pos h]
    by_cases he : (mapGet m nm).getD "" = ""
    · rw [if_neg (not_not_intro he), if_pos he, mapGet_mapSet_self]
    · rw [if_pos he, if_neg he, mapGet_mapSet_self]

set_option maxHeartbeats 2000000 in
theorem strat1_threshold_witness :
    strat1Apply [] ("add", "short") = [] ∧
    mapGet (strat1Apply [] ("add", "a span of ample length")) "add" =
      some "a span of ample length" :=
  ⟨(strat1_threshold [] "add" "short").1 (by decide),
   ((strat1_threshold [] "add" "a span of ample length").2 (by decide)).trans
     (by decide)⟩

/-! ## Claim C7: strategy precedence for instruction descriptions -/

set_option maxHeartbeats 4000000 in
set_option maxRecDepth 8000 in
/-- C7: the strategy-2 first-paragraph fallback never overwrites an
existing instruction-map entry (so a normative-anchor entry written by
strategy 1 survives any later, shorter fallback paragraph); the
scenario-D document yields exactly the cleaned normative text for
`add`; and on a document carrying both a normative anchor for `add`
and an `ADD` heading with a shorter qualifying fallback paragraph, the
final map entry is the normative text, not the fallback paragraph. -/
theorem norm_beats_fallback :
    (∀ (m : DescMap) (nm : String) (sec : List Char) (d : String),
      sectionNormTexts sec = [] → mapGet m nm = some d →
      mapGet (strat2Update m nm sec) nm = some d) ∧
    extractInstrDescs scenarioDDoc = [("add", "ADD performs integer addition.")] ∧
    (mapGet (extractInstrDescs normVsFallbackDoc) "add" =
        some "ADD performs addition of rs1 and rs2 writing into destination rd" ∧
      ("ADD performs addition of rs1 and rs2 writing into destination rd" : String) ≠
        "A standard register encoding with three fields") := by
  refine ⟨fun m nm sec d h hd => ?_, by decide, by decide, by decide⟩
  unfold strat2Update
  rw [if_pos (by rw [h]; rfl)]
  have hh : mapHas m nm = true := by unfold mapHas; rw [hd]; rfl
  cases hq : firstQualifyingPara sec with
  | none => exact hd
  | some c =>
    simp only [hh, if_true]
    exact hd

set_option maxHeartbeats 2000000 in
theorem norm_beats_fallback_witness :
    mapGet (strat2Update [("add", "KEPT")] "add" "\n\nplain text body\n".data) "add" =
      some "KEPT" :=
  (norm_beats_fallback.1 [("add", "KEPT")] "add" "\n\nplain text body\n".data "KEPT"
    (by decide) (by decide))

/-! ## Claim C9: pseudo-ops bypass the bit-field threshold -/

/-- C9: every `$pseudo_op` line whose directive pattern matches emits
exactly one Instruction of type `pseudo`, with whatever operand and
encoding lists the grammar recovers — even when the encoding list is
empty; the at-least-one-bit-field threshold is not consulted. -/
theorem pseudo_emitted_without_bitfields (ext line nm rest : String)
    (hp : "$pseudo_op".data.isPrefixOf (jsTrim line.data) = true)
    (hm : pseudoScan (jsTrim line.data) = some (nm, rest)) :
    processLine ext line =
      [⟨nm, ext, (parseEncodingLine rest).1, (parseEncodingLine rest).2, "",
        RecordType.pseudo⟩] := by
  cases hq : jsTrim line.data with
  | nil =>
    rw [hq] at hp
    exact absurd hp (by decide)
  | cons c cs =>
    rw [hq] at hp hm
    have hc : c = '$' := by
      rw [show "$pseudo_op".data = '$' :: "pseudo_op".data from rfl] at hp
      simp [List.isPrefixOf] at hp
      exact hp.1.symm
    subst hc
    unfold processLine
    rw [hq]
    simp only [List.isEmpty_cons, Bool.false_eq_true, if_false, List.head?_cons]
    rw [if_neg (by simp), if_pos hp, hm]

set_option maxHeartbeats 2000000 in
theorem pseudo_emitted_witness :
    processLine "rv" "$pseudo_op rv_i::base foo bar" =
      [⟨"foo", "rv", [], [], "", RecordType.pseudo⟩] :=
  (pseudo_emitted_without_bitfields "rv" "$pseudo_op rv_i::base foo bar" "foo" "bar"
    (by decide) (by decide)).trans (by decide)

/-! ## Claim C3: instructions require at least one bit field -/

/-- Exhaustive description of the non-directive tail's output. -/
theorem processTail_cases (ext : String) (toks : List String) (i : Instruction)
    (hi : i ∈ processTail ext toks) :
    i.type = RecordType.instruction ∧
      i.encoding = (parseEncodingLine (" ".intercalate (toks.drop 1))).2 ∧
      i.encoding ≠ [] := by
  rcases toks with _ | ⟨nm, tokRest⟩
  · simp [processTail] at hi
  · rcases tokRest with _ | ⟨t2, rest2⟩
    · simp [processTail] at hi
    · simp only [processTail] at hi
      split at hi
      · split at hi
        · simp at hi
        · rename_i hemp
          simp at hi
          subst hi
          refine ⟨rfl, by simp, ?_⟩
          intro h0
          show False
          rw [show (parseEncodingLine (" ".intercalate (t2 :: rest2))).2 = [] from h0] at hemp
          exact hemp rfl
      · simp at hi

/-- Exhaustive description of what one line can contribute. -/
theorem processLine_cases (ext line : String) (i : Instruction)
    (hi : i ∈ processLine ext line) :
    i.type = RecordType.pseudo ∨
    (i.type = RecordType.instruction ∧
      i.encoding = (parseEncodingLine (restLine line)).2 ∧ i.encoding ≠ []) := by
  simp only [processLine] at hi
  split at hi
  · simp at hi
  · split at hi
    · simp at hi
    · split at hi
      · split at hi
        · simp at hi
          subst hi
          exact Or.inl rfl
        · simp at hi
      · split at hi
        · simp at hi
        · exact Or.inr (processTail_cases ext (lineTokens line) i hi)

/-- C3: an Instruction of type `instruction` is emitted for a line only
if at least one bit field was recovered, and a line whose encoding-line
parse yields zero bit fields contributes no record of type
`instruction`. -/
theorem instruction_needs_bitfields :
    (∀ (ext line : String) (i : Instruction), i ∈ processLine ext line →
      i.type = RecordType.instruction → i.encoding ≠ []) ∧
    (∀ (ext line : String), (parseEncodingLine (restLine line)).2 = [] →
      ∀ i ∈ processLine ext line, i.type ≠ RecordType.instruction) := by
  constructor
  · intro ext line i hi htype
    rcases processLine_cases ext line i hi with h | h
    · rw [htype] at h
      exact absurd h (by decide)
    · exact h.2.2
  · intro ext line hz i hi htype
    rcases processLine_cases ext line i hi with h | h
    · rw [htype] at h
      exact absurd h (by decide)
    · rw [hz] at h
      exact h.2.2 h.2.1

set_option maxHeartbeats 2000000 in
theorem instruction_needs_bitfields_witness :
    ({ name := "add", extension := "rv_i", operands := [],
       encoding := [⟨6, 0, some 51⟩], description := "",
       type := RecordType.instruction } : Instruction).encoding ≠ [] ∧
    ∀ i ∈ processLine "rv_i" "foo bar", i.type ≠ RecordType.instruction :=
  ⟨instruction_needs_bitfields.1 "rv_i" "add 6..0=0x33" _ (by decide) rfl,
   instruction_needs_bitfields.2 "rv_i" "foo bar" (by decide)⟩

/-! ## Claim C8: first-occurrence-wins deduplication -/

theorem dedupGo_filter_of_mem (l : List Instruction) :
    ∀ (seen : List String) (n : String), n ∈ seen →
      (dedupGo seen l).filter (fun i => i.name == n) = [] := by
  induction l with
  | nil => intro seen n _; rfl
  | cons i rest ih =>
    intro seen n hn
    unfold dedupGo
    split
    · exact ih seen n hn
    · rename_i hmem
      have hne : (i.name == n) = false := by
        have : i.name ≠ n := fun he => hmem (he ▸ hn)
        simp [this]
      simp only [List.filter_cons, hne, Bool.false_eq_true, if_false]
      exact ih (i.name :: seen) n (List.mem_cons_of_mem _ hn)

theorem dedupGo_filter (l : List Instruction) :
    ∀ (seen : List String) (n : String), n ∉ seen →
      (dedupGo seen l).filter (fun i => i.name == n) =
        (l.filter (fun i => i.name == n)).take 1 := by
  induction l with
  | nil => intro seen n _; rfl
  | cons i rest ih =>
    intro seen n hn
    unfold dedupGo
    split
    · rename_i hmem
      have hne : (i.name == n) = false := by
        have : i.name ≠ n := fun he => hn (he ▸ hmem)
        simp [this]
      simp only [List.filter_cons, hne, Bool.false_eq_true, if_false]
      exact ih seen n hn
    · rename_i hmem
      by_cases he : i.name = n
      · subst he
        simp only [List.filter_cons, beq_self_eq_true, if_true, List.take_succ_cons,
          List.take_zero]
        rw [dedupGo_filter_of_mem rest (i.name :: seen) i.name (List.mem_cons_self _ _)]
      · have hne : (i.name == n) = false := by simp [he]
        simp only [List.filter_cons, hne, Bool.false_eq_true, if_false]
        refine ih (i.name :: seen) n ?_
        intro hmem'
        rcases List.mem_cons.mp hmem' with h | h
        · exact he h.symm
        · exact hn h

theorem dedupGo_names_nodup (l : List Instruction) :
    ∀ seen : List String,
      ((dedupGo seen l).map Instruction.name).Nodup ∧
      ∀ n ∈ (dedupGo seen l).map Instruction.name, n ∉ seen := by
  induction l with
  | nil => intro seen; exact ⟨List.nodup_nil, by simp [dedupGo]⟩
  | cons i rest ih =>
    intro seen
    unfold dedupGo
    split
    · exact ih seen
    · rename_i hmem
      obtain ⟨hnd, hni⟩ := ih (i.name :: seen)
      constructor
      · rw [List.map_cons]
        refine List.nodup_cons.mpr ⟨?_, hnd⟩
        intro hc
        exact (hni i.name hc) (List.mem_cons_self _ _)
      · intro n hn
        rw [List.map_cons] at hn
        rcases List.mem_cons.mp hn with h | h
        · subst h; exact hmem
        · intro hcon; exact (hni n h) (List.mem_cons_of_mem _ hcon)

/-- C8: after deduplication, the records bearing any given name are
exactly the first record of that name from the input (so a name that
occurs several times keeps exactly its first occurrence), and the names
in the final array are pairwise distinct. -/
theorem dedup_first_wins :
    (∀ (l : List Instruction) (n : String),
      (dedupInstructions l).filter (fun i => i.name == n) =
        (l.filter (fun i => i.name == n)).take 1) ∧
    ∀ l : List Instruction, ((dedupInstructions l).map Instruction.name).Nodup :=
  ⟨fun l n => dedupGo_filter l [] n (by simp),
   fun l => (dedupGo_names_nodup l []).1⟩

/-! ## Claim C4: bit-range and single-bit tokens -/

theorem digit_char_facts {c : Char} (h : isDigitC c = true) :
    jsIsSpace c = false ∧ c ≠ '-' ∧ c ≠ '+' ∧ c ≠ 'x' ∧ c ≠ 'X' := by
  have hb : 48 ≤ c.toNat ∧ c.toNat ≤ 57 := by simpa [isDigitC] using h
  refine ⟨by simp [jsIsSpace]; omega, ?_, ?_, ?_, ?_⟩ <;>
    (intro he; subst he; exact absurd h (by decide))

theorem hex_char_facts {c : Char} (h : isHexC c = true) : jsIsSpace c = false := by
  have hb : ((48 ≤ c.toNat ∧ c.toNat ≤ 57) ∨ (97 ≤ c.toNat ∧ c.toNat ≤ 102)) ∨
      (65 ≤ c.toNat ∧ c.toNat ≤ 70) := by simpa [isHexC] using h
  simp [jsIsSpace]
  omega

theorem reprFin :
    ∀ n : Fin 32, ((Nat.repr n.val).data.all isDigitC = true) ∧
      (Nat.repr n.val).data ≠ [] ∧ digitsToNat (Nat.repr n.val).data = n.val := by
  decide

theorem anyNl_false {v : List Char} (h : ∀ c ∈ v, jsIsSpace c = false) :
    (v.any (fun c => c = '\n')) = false := by
  cases hq : v.any (fun c => c = '\n') with
  | false => rfl
  | true =>
    obtain ⟨c, hc, he⟩ := List.any_eq_true.mp hq
    have : c = '\n' := by simpa using he
    subst this
    exact absurd (h _ hc) (by decide)

theorem inOps_false_of_eq_mem {tok : List Char} (h : '=' ∈ tok) :
    inOps (String.mk tok) = false := by
  cases hq : inOps (String.mk tok) with
  | false => rfl
  | true =>
    unfold inOps at hq
    obtain ⟨o, ho, hoeq⟩ := List.any_eq_true.mp hq
    have heq : o = String.mk tok := by simpa using hoeq
    have hall : ∀ o ∈ KNOWN_OPERANDS, '=' ∉ o.data := by decide
    have : '=' ∈ o.data := by rw [heq]; exact h
    exact absurd this (hall o ho)

theorem signSplit_nosign {c : Char} {cs : List Char} (h1 : c ≠ '-') (h2 : c ≠ '+') :
    signSplit (c :: cs) = (false, c :: cs) := by
  simp [signSplit, h1, h2]

theorem rangeMatch_mk {hs ls v : List Char}
    (hhs : hs ≠ []) (hhsd : ∀ c ∈ hs, isDigitC c = true)
    (hls : ls ≠ []) (hlsd : ∀ c ∈ ls, isDigitC c = true)
    (hv : v ≠ []) (hvn : ∀ c ∈ v, jsIsSpace c = false) :
    rangeMatch (hs ++ '.' :: '.' :: (ls ++ '=' :: v)) = some (hs, ls, v) := by
  obtain ⟨ht, hd⟩ := takeWhile_app isDigitC hs '.' ('.' :: (ls ++ '=' :: v)) hhsd (by decide)
  obtain ⟨ht2, hd2⟩ := takeWhile_app isDigitC ls '=' v hlsd (by decide)
  have hse : hs.isEmpty = false := by
    cases hs with
    | nil => exact absurd rfl hhs
    | cons _ _ => rfl
  have hse2 : ls.isEmpty = false := by
    cases ls with
    | nil => exact absurd rfl hls
    | cons _ _ => rfl
  have hve : v.isEmpty = false := by
    cases v with
    | nil => exact absurd rfl hv
    | cons _ _ => rfl
  unfold rangeMatch
  rw [ht, hd]
  simp only [hse, Bool.false_eq_true, if_false, ht2, hd2, hse2, hve,
    anyNl_false hvn, Bool.or_self]

theorem rangeMatch_single_none {bs v : List Char}
    (hbs : bs ≠ []) (hbsd : ∀ c ∈ bs, isDigitC c = true) :
    rangeMatch (bs ++ '=' :: v) = none := by
  obtain ⟨ht, hd⟩ := takeWhile_app isDigitC bs '=' v hbsd (by decide)
  have hse : bs.isEmpty = false := by
    cases bs with
    | nil => exact absurd rfl hbs
    | cons _ _ => rfl
  unfold rangeMatch
  rw [ht, hd]
  simp [hse]

theorem singleMatch_mk {bs v : List Char}
    (hbs : bs ≠ []) (hbsd : ∀ c ∈ bs, isDigitC c = true)
    (hv : v ≠ []) (hvn : ∀ c ∈ v, jsIsSpace c = false) :
    singleMatch (bs ++ '=' :: v) = some (bs, v) := by
  obtain ⟨ht, hd⟩ := takeWhile_app isDigitC bs '=' v hbsd (by decide)
  have hse : bs.isEmpty = false := by
    cases bs with
    | nil => exact absurd rfl hbs
    | cons _ _ => rfl
  have hve : v.isEmpty = false := by
    cases v with
    | nil => exact absurd rfl hv
    | cons _ _ => rfl
  unfold singleMatch
  rw [ht, hd]
  simp only [hse, Bool.false_eq_true, if_false, hve, anyNl_false hvn, Bool.or_self]

theorem jsParseValue_dec {v : List Char} (hne : v ≠ [])
    (hd : ∀ c ∈ v, isDigitC c = true) :
    jsParseValue v = some ((digitsToNat v : Int)) := by
  obtain ⟨c, cs, rfl⟩ : ∃ c cs, v = c :: cs := by
    cases v with
    | nil => exact absurd rfl hne
    | cons c cs => exact ⟨c, cs, rfl⟩
  have hc := digit_char_facts (hd c (List.mem_cons_self c cs))
  have hsw : startsWith0x (c :: cs) = false := by
    cases cs with
    | nil => rfl
    | cons c1 cs1 =>
      have h1 := digit_char_facts (hd c1 (by simp))
      simp [startsWith0x, h1.2.2.2.1]
  have hhm : hasHexMark (c :: cs) = false := by
    cases cs with
    | nil => rfl
    | cons c1 cs1 =>
      have h1 := digit_char_facts (hd c1 (by simp))
      simp [hasHexMark, h1.2.2.2.1, h1.2.2.2.2]
  have hdw : (c :: cs).dropWhile jsIsSpace = c :: cs := dropWhile_head_false hc.1
  have hss : signSplit (c :: cs) = (false, c :: cs) := signSplit_nosign hc.2.1 hc.2.2.1
  have hve : (c :: cs).isEmpty = false := rfl
  unfold jsParseValue
  rw [hsw]
  simp only [Bool.false_eq_true, if_false]
  unfold jsParseIntAuto
  rw [hdw, hss]
  simp only [hhm, Bool.false_eq_true, if_false]
  unfold parseIntTail
  rw [hdw, hss]
  simp only [takeWhile_all hd, hve, Bool.false_eq_true, if_false]

theorem jsParseValue_hex {ds : List Char} (hne : ds ≠ [])
    (hd : ∀ c ∈ ds, isHexC c = true) :
    jsParseValue ('0' :: 'x' :: ds) = some ((hexDigitsToNat ds : Int)) := by
  have hdw : ('0' :: 'x' :: ds).dropWhile jsIsSpace = '0' :: 'x' :: ds :=
    dropWhile_head_false (by decide)
  have hss : signSplit ('0' :: 'x' :: ds) = (false, '0' :: 'x' :: ds) :=
    signSplit_nosign (by decide) (by decide)
  have hms : hexMarkStrip ('0' :: 'x' :: ds) = ds := by
    simp [hexMarkStrip]
  have hde : ds.isEmpty = false := by
    cases ds with
    | nil => exact absurd rfl hne
    | cons _ _ => rfl
  unfold jsParseValue
  rw [if_pos (by simp [startsWith0x])]
  unfold jsParseIntHex16 parseIntTail
  rw [hdw, hss]
  simp only [if_true, hms, takeWhile_all hd, hde, Bool.false_eq_true, if_false]

theorem startsWith0x_false_of_digits {v : List Char}
    (hd : ∀ c ∈ v, isDigitC c = true) : startsWith0x v = false := by
  rcases v with _ | ⟨c, _ | ⟨c1, r⟩⟩
  · rfl
  · rfl
  · have h1 := digit_char_facts (hd c1 (by simp))
    simp [startsWith0x, h1.2.2.2.1]

theorem reprFacts {n : Nat} (hn : n ≤ 31) :
    ((Nat.repr n).data.all isDigitC = true) ∧ (Nat.repr n).data ≠ [] ∧
      digitsToNat (Nat.repr n).data = n :=
  reprFin ⟨n, by omega⟩

/-- The facts about a numeric literal needed by the grammar theorem. -/
theorem litFacts (v : String) (hv : isDecLit v ∨ isHexLit v) :
    v.data ≠ [] ∧ (∀ c ∈ v.data, jsIsSpace c = false) ∧
      jsParseValue v.data = some (litVal v) := by
  rcases hv with ⟨hne, hd⟩ | ⟨ds, hveq, hdne, hdh⟩
  · refine ⟨hne, fun c hc => (digit_char_facts (hd c hc)).1, ?_⟩
    rw [jsParseValue_dec hne hd]
    unfold litVal
    rw [if_neg (by simp [startsWith0x_false_of_digits hd])]
  · refine ⟨by rw [hveq]; simp, ?_, ?_⟩
    · intro c hc
      rw [hveq] at hc
      rcases List.mem_cons.mp hc with rfl | hc
      · rfl
      rcases List.mem_cons.mp hc with rfl | hc
      · rfl
      exact hex_char_facts (hdh c hc)
    · rw [hveq, jsParseValue_hex hdne hdh]
      unfold litVal
      rw [hveq, if_pos (by simp [startsWith0x])]
      simp

/-- C4: a bit-range token `h..l=v` with `0 ≤ l ≤ h ≤ 31` makes the
grammar emit exactly one BitField with that `high` and `low` and with
`v` parsed as hexadecimal when it carries the `0x` prefix and as
decimal otherwise; a single-bit token `b=v` emits one BitField with
`high = low = b`.  No operand is recorded for either token. -/
theorem grammar_bitfield_tokens :
    (∀ (h l : Nat) (v : String), h ≤ 31 → l ≤ h → isDecLit v ∨ isHexLit v →
      parseEncodingLine (Nat.repr h ++ ".." ++ Nat.repr l ++ "=" ++ v) =
        ([], [⟨h, l, some (litVal v)⟩])) ∧
    (∀ (b : Nat) (v : String), b ≤ 31 → isDecLit v ∨ isHexLit v →
      parseEncodingLine (Nat.repr b ++ "=" ++ v) =
        ([], [⟨b, b, some (litVal v)⟩])) := by
  constructor
  · intro h l v hh hl hv
    obtain ⟨vne, vns, vval⟩ := litFacts v hv
    obtain ⟨hallh, hneh, hvalh⟩ := reprFacts hh
    obtain ⟨halll, hnel, hvall⟩ := reprFacts (le_trans hl hh)
    have hdata : (Nat.repr h ++ ".." ++ Nat.repr l ++ "=" ++ v).data =
        (Nat.repr h).data ++ '.' :: '.' :: ((Nat.repr l).data ++ '=' :: v.data) := by
      simp only [String.data_append]
      simp [List.append_assoc]
    have hws : ∀ c ∈ (Nat.repr h).data ++ '.' :: '.' ::
        ((Nat.repr l).data ++ '=' :: v.data), jsIsSpace c = false := by
      intro c hc
      rcases List.mem_append.mp hc with hc | hc
      · exact (digit_char_facts (List.all_eq_true.mp hallh c hc)).1
      · rcases List.mem_cons.mp hc with rfl | hc
        · rfl
        rcases List.mem_cons.mp hc with rfl | hc
        · rfl
        rcases List.mem_append.mp hc with hc | hc
        · exact (digit_char_facts (List.all_eq_true.mp halll c hc)).1
        rcases List.mem_cons.mp hc with rfl | hc
        · rfl
        · exact vns c hc
    unfold parseEncodingLine
    rw [hdata, splitWs_single (by simp) hws, List.foldl_cons, List.foldl_nil]
    unfold encStep
    rw [if_neg (by rw [inOps_false_of_eq_mem (by simp)]; simp)]
    rw [rangeMatch_mk hneh (List.all_eq_true.mp hallh) hnel (List.all_eq_true.mp halll)
      vne vns]
    dsimp only
    rw [hvalh, hvall, vval]
    simp
  · intro b v hb hv
    obtain ⟨vne, vns, vval⟩ := litFacts v hv
    obtain ⟨hallb, hneb, hvalb⟩ := reprFacts hb
    have hdata : (Nat.repr b ++ "=" ++ v).data =
        (Nat.repr b).data ++ '=' :: v.data := by
      simp only [String.data_append]
      simp [List.append_assoc]
    have hws : ∀ c ∈ (Nat.repr b).data ++ '=' :: v.data, jsIsSpace c = false := by
      intro c hc
      rcases List.mem_append.mp hc with hc | hc
      · exact (digit_char_facts (List.all_eq_true.mp hallb c hc)).1
      · rcases List.mem_cons.mp hc with rfl | hc
        · rfl
        · exact vns c hc
    unfold parseEncodingLine
    rw [hdata, splitWs_single (by simp) hws, List.foldl_cons, List.foldl_nil]
    unfold encStep
    rw [if_neg (by rw [inOps_false_of_eq_mem (by simp)]; simp)]
    rw [rangeMatch_single_none hneb (List.all_eq_true.mp hallb)]
    rw [singleMatch_mk hneb (List.all_eq_true.mp hallb) vne vns]
    dsimp only
    rw [hvalb, vval]
    simp

set_option maxHeartbeats 2000000 in
theorem grammar_bitfield_tokens_witness :
    parseEncodingLine "31..25=0x33" = ([], [⟨31, 25, some 51⟩]) ∧
    parseEncodingLine "6=1" = ([], [⟨6, 6, some 1⟩]) :=
  ⟨(grammar_bitfield_tokens.1 31 25 "0x33" (by decide) (by decide)
      (Or.inr ⟨['3', '3'], by decide, by decide, by decide⟩)).trans (by decide),
   (grammar_bitfield_tokens.2 6 "1" (by decide)
      (Or.inl ⟨by decide, by decide⟩)).trans (by decide)⟩

end RvSpecGrep
